import Mathlib

/-!
Verification development for a face-recognition attendance system.

The definitions below are a shallow embedding of the core modules:
`face_system.py` (enrollment, recognition, attendance ledger, persistence),
`models/quality_filter.py` (quality gate) and `models/faiss_matcher.py`
(index wrapper).  Machine floats are modelled by `ℚ`; image-processing
helpers (detection, Laplacian blur, brightness, pose estimation) are
external collaborators whose outputs are taken as inputs of the model.
-/

namespace FaceRec

/-- A face record as produced by `detect_and_extract` and as stored in
`embeddings_db`: the (already L2-normalised) embedding vector together with
the continuous quality score and the detector confidence. -/
structure FaceData where
  embedding : List ℚ
  quality_score : ℚ
  det_score : ℚ
  deriving DecidableEq, Repr

/-- The embedding store `embeddings_db`: an insertion-ordered mapping from
person name to that person's list of stored records (Python dicts preserve
insertion order). -/
abbrev DB := List (String × List FaceData)

/-- Ranking key used by `enroll_person`: `quality_score * det_score`. -/
def weightKey (e : FaceData) : ℚ := e.quality_score * e.det_score

/-- Descending comparison on the ranking key (the relation sorted by
`sort(key=..., reverse=True)` in `enroll_person`). -/
def recGe (a b : FaceData) : Prop := weightKey b ≤ weightKey a

instance : DecidableRel recGe := fun _ _ => inferInstanceAs (Decidable (_ ≤ _))

instance : IsTotal FaceData recGe := ⟨fun a b => le_total (weightKey b) (weightKey a)⟩

instance : IsTrans FaceData recGe := ⟨fun _ _ _ h1 h2 => le_trans h2 h1⟩

/-- Sort a record list descending by `quality_score * det_score`
(`self.embeddings_db[name].sort(key=lambda x: x['quality_score'] * x['det_score'], reverse=True)`). -/
def sortByKeyDesc (l : List FaceData) : List FaceData := List.insertionSort recGe l

/-- Lines 152-156 of `enroll_person`: append the newly selected record,
re-sort descending by quality×detection, truncate to the cap. -/
def enrollUpdate (cap : ℕ) (l : List FaceData) (e : FaceData) : List FaceData :=
  (sortByKeyDesc (l ++ [e])).take cap

/-- `max_embeddings_per_person` (default configuration value). -/
def max_embeddings_per_person : ℕ := 20

/-- `min_embedding_quality` (default configuration value). -/
def min_embedding_quality : ℚ := 0.2

/-- Association lookup in the embedding store (`self.embeddings_db[name]`,
with a missing name read as the empty list). -/
def dbGet : DB → String → List FaceData
  | [], _ => []
  | p :: rest, n => if p.1 = n then p.2 else dbGet rest n

/-- Association update in the embedding store (`self.embeddings_db[name] = v`);
a new name is appended, matching dict insertion order. -/
def dbSet : DB → String → List FaceData → DB
  | [], n, v => [(n, v)]
  | p :: rest, n, v => if p.1 = n then (n, v) :: rest else p :: dbSet rest n v

/-- `max(quality_faces, key=lambda x: x['quality_score'] * x['det_score'])`:
Python's `max` keeps the earliest maximal element. -/
def pickBest (f0 : FaceData) (rest : List FaceData) : FaceData :=
  rest.foldl (fun a c => if weightKey a < weightKey c then c else a) f0

/-- `enroll_person`, taking the detector's output for the image (the list of
extracted faces) as input.  Returns the success flag and the updated store. -/
def enroll_person (db : DB) (name : String) (faces : List FaceData) : Bool × DB :=
  match faces.filter (fun f => min_embedding_quality ≤ f.quality_score) with
  | [] => (false, db)
  | f0 :: rest =>
    let best_face := pickBest f0 rest
    (true, dbSet db name (enrollUpdate max_embeddings_per_person (dbGet db name) best_face))

/-- Result dictionary of `enroll_multiple_images`. -/
structure EnrollResult where
  success : Bool
  enrolled_count : ℕ
  total_embeddings : ℕ
  avg_quality : ℚ
  deriving DecidableEq, Repr

/-- `enroll_multiple_images`, taking the detector output per image.  After a
successful single enrollment the code reads
`self.embeddings_db[name][-1]['quality_score']` — the LAST element of the
quality-sorted list — into the quality accumulator. -/
def enroll_multiple_images (db : DB) (name : String) (images : List (List FaceData)) :
    EnrollResult × DB :=
  let step := fun (st : DB × ℕ × ℚ) (faces : List FaceData) =>
    let (ok, db') := enroll_person st.1 name faces
    if ok then
      let q := ((dbGet db' name).getLast?.map FaceData.quality_score).getD 0
      (db', st.2.1 + 1, st.2.2 + q)
    else (db', st.2.1, st.2.2)
  let fin := images.foldl step (db, 0, 0)
  ({ success := decide (0 < fin.2.1),
     enrolled_count := fin.2.1,
     total_embeddings := (dbGet fin.1 name).length,
     avg_quality := if 0 < fin.2.1 then fin.2.2 / (fin.2.1 : ℚ) else 0 }, fin.1)

/-! ## Recognition (linear scan) -/

/-- Dot product of two vectors (`np.dot`); the stored and query embeddings
are unit-norm, so this is the raw cosine similarity. -/
def dotQ (a b : List ℚ) : ℚ := (List.zipWith (· * ·) a b).sum

/-- Quality-weighted similarity of a query embedding against one stored
record: `similarity * (0.7 + 0.3 * emb_data['quality_score'])`. -/
def weightedSim (q : List ℚ) (e : FaceData) : ℚ :=
  dotQ q e.embedding * (0.7 + 0.3 * e.quality_score)

/-- The per-person list of weighted similarities built by the inner loop of
`recognize_face`. -/
def personSims (q : List ℚ) (embs : List FaceData) : List ℚ :=
  embs.map (weightedSim q)

/-- `np.mean(sorted(similarities, reverse=True)[:3])`: average of the top 3
(or all, if fewer) values. -/
def topAvg (sims : List ℚ) : ℚ :=
  let top := (List.insertionSort (· ≥ ·) sims).take 3
  top.sum / (top.length : ℚ)

/-- A person's match score in `recognize_face`. -/
def personScore (q : List ℚ) (embs : List FaceData) : ℚ := topAvg (personSims q embs)

/-- One iteration of the candidate-selection loop of `recognize_face`:
a person is considered only if its similarity list is non-empty, and
replaces the incumbent `(best_match, best_similarity)` only on a strictly
greater score. -/
def bestStep (q : List ℚ) (acc : Option String × ℚ) (p : String × List FaceData) :
    Option String × ℚ :=
  if p.2 = [] then acc
  else if acc.2 < personScore q p.2 then (some p.1, personScore q p.2) else acc

/-- The candidate-selection loop of `recognize_face`: fold over the enrolled
persons, starting from `(None, 0.0)`. -/
def bestFold (q : List ℚ) (db : DB) : Option String × ℚ :=
  db.foldl (bestStep q) (none, (0 : ℚ))

/-- `threshold * (0.8 + 0.2 * face_data['quality_score'])`. -/
def quality_adjusted_threshold (t q : ℚ) : ℚ := t * (0.8 + 0.2 * q)

/-- Per-face output record of `recognize_face` (bbox and pass-through scores
omitted). -/
structure RecogResult where
  matched : Bool
  name : Option String
  confidence : ℚ
  deriving DecidableEq, Repr

/-- The per-face result of `recognize_face` for a detected query face. -/
def recognize_one (t : ℚ) (db : DB) (face : FaceData) : RecogResult :=
  let b := bestFold face.embedding db
  let adj := quality_adjusted_threshold t face.quality_score
  { matched := decide (adj ≤ b.2),
    name := if adj ≤ b.2 then b.1 else none,
    confidence := b.2 }

/-- Spec-side per-person score, written from the spec's words: form the
multiset of quality-weighted similarities, take its three largest elements
and average them.  Stated with `Multiset.sort` so it is constructed
independently of the code-side `personScore`. -/
def specPersonScore (q : List ℚ) (embs : List FaceData) : ℚ :=
  let top := ((personSims q embs : Multiset ℚ).sort (· ≥ ·)).take 3
  top.sum / (top.length : ℚ)

/-! ## Quality filter (`models/quality_filter.py`) -/

/-- `QualityMetrics` dataclass. -/
structure QualityMetrics where
  size_ok : Bool
  blur_score : ℚ
  brightness_ok : Bool
  pose_ok : Bool
  is_acceptable : Bool
  deriving DecidableEq, Repr

/-- A detected face as consumed by `FaceQualityFilter.assess`: its bounding
box dimensions, plus the outcomes of the three image-processing helpers
(`_compute_blur_score`, `_check_brightness`, `_check_pose`), which read only
the pixel crop / landmarks and are modelled as attributes of the face. -/
structure DetFace where
  width : ℚ
  height : ℚ
  blurScore : ℚ
  brightnessOk : Bool
  poseOk : Bool
  deriving DecidableEq, Repr

/-- Configuration of `FaceQualityFilter` relevant to `assess`. -/
structure QFConfig where
  min_face_size : ℚ
  blur_threshold : ℚ
  deriving DecidableEq, Repr

/-- `FaceQualityFilter.assess`. -/
def assess (cfg : QFConfig) (f : DetFace) : QualityMetrics :=
  let size_ok := decide (cfg.min_face_size ≤ f.width) && decide (cfg.min_face_size ≤ f.height)
  let blur_score := f.blurScore
  let brightness_ok := f.brightnessOk
  let pose_ok := f.poseOk
  { size_ok := size_ok
    blur_score := blur_score
    brightness_ok := brightness_ok
    pose_ok := pose_ok
    is_acceptable :=
      size_ok && decide (cfg.blur_threshold ≤ blur_score) && brightness_ok && pose_ok }

/-! ## Persistence (`save_embeddings` / `load_embeddings`) -/

/-- One serialized embedding entry in the JSON file: either the current
dict format (whose fields are read back with `.get(..., 0.5)` defaults), or
the legacy bare-array format. -/
inductive SavedEmb where
  | modern (e : List ℚ) (q : Option ℚ) (d : Option ℚ)
  | legacy (e : List ℚ)
  deriving DecidableEq, Repr

/-- Serialization of one stored record performed by `save_embeddings`
(`tolist()` on the vector, both score fields always written). -/
def saveRecord (r : FaceData) : SavedEmb :=
  .modern r.embedding (some r.quality_score) (some r.det_score)

/-- `save_embeddings`: the JSON object written to disk. -/
def save_embeddings (db : DB) : List (String × List SavedEmb) :=
  db.map (fun p => (p.1, p.2.map saveRecord))

/-- Deserialization of one entry performed by `load_embeddings`
(`np.array(..., dtype=np.float32)` on the vector — exact on this rational
model — and 0.5 defaults for missing score fields). -/
def loadRecord : SavedEmb → FaceData
  | .modern e q d => ⟨e, q.getD 0.5, d.getD 0.5⟩
  | .legacy e => ⟨e, 0.5, 0.5⟩

/-- `load_embeddings` into a fresh (empty-store) instance. -/
def load_embeddings (data : List (String × List SavedEmb)) : DB :=
  data.map (fun p => (p.1, p.2.map loadRecord))

/-! ## Store counters -/

/-- `get_enrolled_count`: `sum(len(embeddings) for embeddings in self.embeddings_db.values())`. -/
def get_enrolled_count (db : DB) : ℕ := (db.map (fun p => p.2.length)).sum

/-- `get_enrolled_names`: `list(self.embeddings_db.keys())`. -/
def get_enrolled_names (db : DB) : List String := db.map Prod.fst

/-! ## FAISS matcher (`models/faiss_matcher.py`) -/

/-- State of `FAISSMatcher`: the index rows (the L2 normalisation applied
before `index.add` is a per-row value map with no rational closed form and
no effect on row count or row order, so rows store the submitted vector),
the parallel `student_ids` list, and the metadata keys. -/
structure FMState where
  index : List (List ℚ)
  student_ids : List String
  metadata : List String
  deriving DecidableEq, Repr

/-- Freshly initialised matcher (`_init_index` with nothing loaded). -/
def initFM : FMState := ⟨[], [], []⟩

/-- `FAISSMatcher.add_student`: reject a wrong-shaped embedding, otherwise
append one row to the index and the id to `student_ids`. -/
def add_student (s : FMState) (id : String) (emb : List ℚ) : Bool × FMState :=
  if emb.length ≠ 512 then (false, s)
  else
    (true,
      { index := s.index ++ [emb],
        student_ids := s.student_ids ++ [id],
        metadata := if id ∈ s.metadata then s.metadata else s.metadata ++ [id] })

/-- `FAISSMatcher.remove_student`: absent id is a no-op returning false;
otherwise the surviving ids and metadata are collected, `_init_index()`
replaces the index with a fresh EMPTY one, and no embedding is re-added
(the loop body only appends to `remaining_ids` / `remaining_metadata`). -/
def remove_student (s : FMState) (id : String) : Bool × FMState :=
  if id ∈ s.student_ids then
    (true,
      { index := [],
        student_ids := s.student_ids.filter (fun x => x ≠ id),
        metadata := s.metadata.filter (fun x => x ≠ id) })
  else (false, s)

/-- `FAISSMatcher.clear_index`. -/
def clear_index (_ : FMState) : Bool × FMState := (true, initFM)

/-- A valid 512-dimensional embedding. -/
def e512 : List ℚ := List.replicate 512 1

/-! ## Attendance ledger (`log_attendance`) -/

/-- One CSV row of the attendance ledger. -/
structure AttRow where
  date : String
  time : String
  name : String
  confidence : ℚ
  status : String
  deriving DecidableEq, Repr

/-- The `.3f` formatting applied to the confidence before it is written:
rounding to three decimal places. -/
def fmt3 (c : ℚ) : ℚ := ((round (c * 1000) : ℤ) : ℚ) / 1000

/-- Attendance state: the append-only CSV ledger plus the in-memory
`daily_attendance` map from ISO date to the set of names logged that day
(modelled as an association list of name lists; only membership is used). -/
structure AttState where
  ledger : List AttRow
  daily : List (String × List String)
  deriving DecidableEq, Repr

/-- Fresh system over an empty CSV. -/
def initAtt : AttState := ⟨[], []⟩

/-- Read a day's name set (`self.daily_attendance[today]`, a missing day
reading as the empty set -- the code inserts an empty set on demand). -/
def dailyGet : List (String × List String) → String → List String
  | [], _ => []
  | p :: rest, d => if p.1 = d then p.2 else dailyGet rest d

/-- Add a name to a day's set (`self.daily_attendance[today].add(name)`). -/
def dailyAdd : List (String × List String) → String → String → List (String × List String)
  | [], d, n => [(d, [n])]
  | p :: rest, d, n => if p.1 = d then (p.1, n :: p.2) :: rest else p :: dailyAdd rest d n

/-- `log_attendance(name, confidence)` executed when the current date is
`today` and the wall clock reads `time`: a name already in today's set is
a no-op returning false; otherwise one row is appended to the ledger and
the name is added to today's set. -/
def log_attendance (today time name : String) (conf : ℚ) (s : AttState) : Bool × AttState :=
  if name ∈ dailyGet s.daily today then (false, s)
  else
    (true, ⟨s.ledger ++ [⟨today, time, name, fmt3 conf, "Present"⟩], dailyAdd s.daily today name⟩)

/-- One `log_attendance` request together with the simulated date and time
at which it arrives. -/
structure LogReq where
  day : String
  time : String
  name : String
  conf : ℚ

/-- A whole run of `log_attendance` calls. -/
def runLog (s : AttState) (reqs : List LogReq) : AttState :=
  reqs.foldl (fun st r => (log_attendance r.day r.time r.name r.conf st).2) s

/-- Number of ledger rows for a given (day, name) pair. -/
def rowCount (ledger : List AttRow) (d n : String) : ℕ :=
  (ledger.filter (fun r => decide (r.date = d ∧ r.name = n))).length

/-! ## Theorems -/

/-- Reading the day just written returns the new name on top of the old set. -/
theorem dailyGet_dailyAdd_same (dl : List (String × List String)) (d n : String) :
    dailyGet (dailyAdd dl d n) d = n :: dailyGet dl d := by
  induction dl with
  | nil => simp [dailyAdd, dailyGet]
  | cons p rest ih =>
    by_cases h : p.1 = d
    · simp [dailyAdd, dailyGet, h]
    · simp [dailyAdd, dailyGet, h, ih]

/-- Writing one day leaves every other day's set unchanged. -/
theorem dailyGet_dailyAdd_other (dl : List (String × List String)) (d d' n : String)
    (h : d ≠ d') : dailyGet (dailyAdd dl d n) d' = dailyGet dl d' := by
  induction dl with
  | nil => simp [dailyAdd, dailyGet, h]
  | cons p rest ih =>
    by_cases hp : p.1 = d
    · simp [dailyAdd, dailyGet, hp, h]
    · by_cases hp' : p.1 = d' <;> simp [dailyAdd, dailyGet, hp, hp', ih, Ne.symm h]

/-- Appending one row adds one to the count of its own (day, name) pair and
leaves every other pair's count unchanged. -/
theorem rowCount_append (l : List AttRow) (r : AttRow) (d n : String) :
    rowCount (l ++ [r]) d n =
      rowCount l d n + (if r.date = d ∧ r.name = n then 1 else 0) := by
  simp only [rowCount, List.filter_append, List.length_append]
  by_cases h : r.date = d ∧ r.name = n <;> simp [h]

/-- Ledger/set coherence: each (day, name) pair has at most one row, and
has none at all unless the name is in that day's in-memory set. -/
def AttInv (s : AttState) : Prop :=
  ∀ d n, rowCount s.ledger d n ≤ if n ∈ dailyGet s.daily d then 1 else 0

/-- `log_attendance` preserves ledger/set coherence. -/
theorem log_attendance_inv (today time name : String) (conf : ℚ) (s : AttState)
    (h : AttInv s) : AttInv (log_attendance today time name conf s).2 := by
  unfold log_attendance
  by_cases hmem : name ∈ dailyGet s.daily today
  · simpa [hmem] using h
  · simp only [hmem, if_false]
    intro d n
    rw [rowCount_append]
    by_cases hd : today = d
    · subst hd
      by_cases hn : name = n
      · subst hn
        have h0 : rowCount s.ledger today name = 0 :=
          Nat.le_zero.mp (by simpa [hmem] using h today name)
        simp [h0, dailyGet_dailyAdd_same]
      · have hget : n ∈ dailyGet (dailyAdd s.daily today name) today ↔
            n ∈ dailyGet s.daily today := by
          rw [dailyGet_dailyAdd_same]
          simp [List.mem_cons, Ne.symm hn]
        simp only [hget, hn, and_false, if_false, Nat.add_zero]
        exact h today n
    · rw [dailyGet_dailyAdd_other s.daily today d name hd]
      simpa [hd] using h d n

/-- Every run of `log_attendance` calls from a fresh state keeps the
ledger/set coherence invariant. -/
theorem runLog_inv (reqs : List LogReq) : AttInv (runLog initAtt reqs) := by
  suffices h : ∀ s, AttInv s → AttInv (runLog s reqs) by
    refine h initAtt ?_
    intro d n
    simp [initAtt, rowCount, dailyGet]
  induction reqs with
  | nil => exact fun s hs => hs
  | cons r rest ih =>
    intro s hs
    exact ih _ (log_attendance_inv r.day r.time r.name r.conf s hs)

/-- Deserialization inverts serialization on every record list. -/
theorem loadRecord_saveRecord (l : List FaceData) : (l.map saveRecord).map loadRecord = l := by
  induction l with
  | nil => rfl
  | cons r t ih => cases r; simp [ih, saveRecord, loadRecord]

/-- Repeated single-image enrollment of one person starting from an empty
record list: each step is the append / re-sort / truncate of lines 152-156
of `enroll_person`. -/
def enrollFold (cap : ℕ) (es : List FaceData) : List FaceData :=
  es.foldl (enrollUpdate cap) []

/-- In a sorted list, every element kept by `take n` is related to every
element discarded into `drop n`. -/
theorem sorted_take_drop {α : Type} {r : α → α → Prop} :
    ∀ (n : ℕ) (l : List α), l.Sorted r →
      ∀ x y, x ∈ l.take n → y ∈ l.drop n → r x y := by
  intro n
  induction n with
  | zero =>
    intro l _ x y hx _
    simp at hx
  | succ k ih =>
    intro l hl x y hx hy
    cases l with
    | nil => simp at hx
    | cons a t =>
      rw [List.take_succ_cons] at hx
      rw [List.drop_succ_cons] at hy
      rcases List.mem_cons.mp hx with rfl | hx'
      · exact (List.sorted_cons.mp hl).1 y (List.mem_of_mem_drop hy)
      · exact ih t (List.sorted_cons.mp hl).2 x y hx' hy

/-- One enrollment step preserves the eviction invariant: the kept list has
length `min (total processed) cap`, stays sorted descending by
quality×detection, is a sub-multiset of everything processed, and every
evicted record's key is at most every kept record's key. -/
theorem enrollUpdate_inv (cap : ℕ) (p l : List FaceData) (e : FaceData)
    (h1 : l.length = min p.length cap)
    (h2 : l.Sorted recGe)
    (h3 : (l : Multiset FaceData) ≤ (p : Multiset FaceData))
    (h4 : ∀ y ∈ ((p : Multiset FaceData) - (l : Multiset FaceData)),
      ∀ x ∈ l, weightKey y ≤ weightKey x) :
    (enrollUpdate cap l e).length = min (p.length + 1) cap ∧
    (enrollUpdate cap l e).Sorted recGe ∧
    ((enrollUpdate cap l e : List FaceData) : Multiset FaceData) ≤
      ((p ++ [e] : List FaceData) : Multiset FaceData) ∧
    ∀ y ∈ (((p ++ [e] : List FaceData) : Multiset FaceData) -
        ((enrollUpdate cap l e : List FaceData) : Multiset FaceData)),
      ∀ x ∈ enrollUpdate cap l e, weightKey y ≤ weightKey x := by
  have hperm : List.Perm (sortByKeyDesc (l ++ [e])) (l ++ [e]) :=
    List.perm_insertionSort recGe (l ++ [e])
  have hsort : (sortByKeyDesc (l ++ [e])).Sorted recGe :=
    List.sorted_insertionSort recGe (l ++ [e])
  set s := sortByKeyDesc (l ++ [e]) with hs
  have hslen : s.length = l.length + 1 := by
    rw [hperm.length_eq]; simp
  have hupd : enrollUpdate cap l e = s.take cap := rfl
  have htd : s.take cap ++ s.drop cap = s := List.take_append_drop cap s
  have hcoe_s : (s : Multiset FaceData) =
      (l : Multiset FaceData) + (([e] : List FaceData) : Multiset FaceData) := by
    rw [Multiset.coe_eq_coe.mpr hperm]
    exact (Multiset.coe_add l [e]).symm
  refine ⟨?_, ?_, ?_, ?_⟩
  · rw [hupd, List.length_take, hslen, h1]
    omega
  · rw [hupd]
    exact List.Pairwise.sublist (List.take_sublist cap s) hsort
  · rw [hupd]
    refine le_trans (Multiset.coe_le.mpr (List.take_sublist cap s).subperm) ?_
    rw [hcoe_s, ← Multiset.coe_add p [e]]
    exact add_le_add_right h3 _
  · intro y hy x hx
    rw [hupd] at hx hy
    have hsub : ((p ++ [e] : List FaceData) : Multiset FaceData) - ↑(s.take cap) =
        ((p : Multiset FaceData) - ↑l) + ↑(s.drop cap) := by
      have e1 : ((p ++ [e] : List FaceData) : Multiset FaceData) =
          ((p : Multiset FaceData) - ↑l) + (↑(s.take cap) + ↑(s.drop cap)) := by
        rw [Multiset.coe_add, htd, hcoe_s, ← add_assoc, tsub_add_cancel_of_le h3,
          Multiset.coe_add]
      rw [e1, add_left_comm, add_tsub_cancel_left]
    rw [hsub] at hy
    rcases Multiset.mem_add.mp hy with hyOld | hyNew
    · have hxs : x ∈ s := List.mem_of_mem_take hx
      have hxle : x ∈ l ++ [e] := hperm.mem_iff.mp hxs
      by_cases hel : e ∈ l
      · have hxl : x ∈ l := by
          rcases List.mem_append.mp hxle with h | h
          · exact h
          · rw [List.mem_singleton.mp h]; exact hel
        exact h4 y hyOld x hxl
      · rcases List.mem_append.mp hxle with hxl | hxe
        · exact h4 y hyOld x hxl
        · have hxe2 : x = e := List.mem_singleton.mp hxe
          have hlt : l.length < p.length := by
            by_contra hge
            push_neg at hge
            have hlp : (l : Multiset FaceData) = ↑p :=
              Multiset.eq_of_le_of_card_le h3
                (by rw [Multiset.coe_card, Multiset.coe_card]; exact hge)
            rw [hlp, tsub_self] at hyOld
            exact absurd hyOld (Multiset.not_mem_zero y)
          have hlcap : l.length = cap := by omega
          have hdlen : (s.drop cap).length = 1 := by
            rw [List.length_drop, hslen, hlcap]
            omega
          obtain ⟨d0, hd0⟩ : ∃ d0, d0 ∈ s.drop cap := by
            cases hdrop : s.drop cap with
            | nil => rw [hdrop] at hdlen; simp at hdlen
            | cons a t => exact ⟨a, hdrop ▸ List.mem_cons_self a t⟩
          have hd0le : d0 ∈ l ++ [e] := hperm.mem_iff.mp (List.mem_of_mem_drop hd0)
          rcases List.mem_append.mp hd0le with hd0l | hd0e
          · exact le_trans (h4 y hyOld d0 hd0l) (sorted_take_drop cap s hsort x d0 hx hd0)
          · have hd0e2 : d0 = e := List.mem_singleton.mp hd0e
            exfalso
            rw [hd0e2] at hd0
            rw [hxe2] at hx
            have hc : List.count e s =
                List.count e (s.take cap) + List.count e (s.drop cap) := by
              conv_lhs => rw [← htd]
              rw [List.count_append]
            have hc1 : 0 < List.count e (s.take cap) := List.count_pos_iff.mpr hx
            have hc2 : 0 < List.count e (s.drop cap) := List.count_pos_iff.mpr hd0
            have hcs : List.count e s = List.count e l + 1 := by
              rw [hperm.count_eq, List.count_append]
              simp
            have hcl : List.count e l = 0 := List.count_eq_zero_of_not_mem hel
            omega
    · exact sorted_take_drop cap s hsort x y hx (Multiset.mem_coe.mp hyNew)

/-- The eviction invariant holds along any run of enrollment steps. -/
theorem enrollFold_inv (cap : ℕ) :
    ∀ (es p l : List FaceData),
      l.length = min p.length cap →
      l.Sorted recGe →
      (l : Multiset FaceData) ≤ (p : Multiset FaceData) →
      (∀ y ∈ ((p : Multiset FaceData) - (l : Multiset FaceData)),
        ∀ x ∈ l, weightKey y ≤ weightKey x) →
      (es.foldl (enrollUpdate cap) l).length = min (p.length + es.length) cap ∧
      (es.foldl (enrollUpdate cap) l).Sorted recGe ∧
      ((es.foldl (enrollUpdate cap) l : List FaceData) : Multiset FaceData) ≤
        ((p ++ es : List FaceData) : Multiset FaceData) ∧
      ∀ y ∈ (((p ++ es : List FaceData) : Multiset FaceData) -
          ((es.foldl (enrollUpdate cap) l : List FaceData) : Multiset FaceData)),
        ∀ x ∈ es.foldl (enrollUpdate cap) l, weightKey y ≤ weightKey x := by
  intro es
  induction es with
  | nil =>
    intro p l h1 h2 h3 h4
    simpa using ⟨h1, h2, h3, h4⟩
  | cons e rest ih =>
    intro p l h1 h2 h3 h4
    obtain ⟨g1, g2, g3, g4⟩ := enrollUpdate_inv cap p l e h1 h2 h3 h4
    have heq : p ++ e :: rest = (p ++ [e]) ++ rest := by simp
    have this :=
      ih (p ++ [e]) (enrollUpdate cap l e)
        (by simpa using g1) g2 g3 g4
    rw [List.foldl_cons, heq]
    refine ⟨?_, this.2.1, this.2.2.1, this.2.2.2⟩
    have l1 := this.1
    simp only [List.length_append, List.length_cons, List.length_nil] at l1 ⊢
    omega

/-- C3: after any sequence of enrollments into one person's (initially
empty) record list, the retained list has exactly `min (number enrolled)
cap` records — in particular it never exceeds the cap — is sorted
descending by quality_score × det_score, is a sub-multiset of everything
enrolled, and every evicted record's quality×detection product is at most
every retained record's, so when more than the cap's worth is enrolled
exactly the cap's worth of highest-product records remain. -/
theorem enroll_cap_sorted_eviction (cap : ℕ) (es : List FaceData) :
    (enrollFold cap es).length = min es.length cap ∧
    (enrollFold cap es).Sorted recGe ∧
    ((enrollFold cap es : List FaceData) : Multiset FaceData) ≤ (es : Multiset FaceData) ∧
    ∀ y ∈ ((es : Multiset FaceData) -
        ((enrollFold cap es : List FaceData) : Multiset FaceData)),
      ∀ x ∈ enrollFold cap es, weightKey y ≤ weightKey x := by
  have h :=
    enrollFold_inv cap es [] [] (by simp) List.sorted_nil (by simp) (by simp)
  simpa [enrollFold] using h

/-- Low-key record used in the eviction witness. -/
def faceLo : FaceData := ⟨[1], 1, 1⟩

/-- High-key record used in the eviction witness. -/
def faceHi : FaceData := ⟨[2], 3, 1⟩

/-- Closed instantiation of `enroll_cap_sorted_eviction`: with cap 1,
enrolling the key-1 record then the key-3 record retains only the key-3
record, and the evicted record's key is at most the retained one's. -/
theorem enroll_cap_sorted_eviction_witness :
    weightKey faceLo ≤ weightKey faceHi := by
  have hfold : enrollFold 1 [faceLo, faceHi] = [faceHi] := by
    norm_num [enrollFold, enrollUpdate, sortByKeyDesc, List.insertionSort,
      List.orderedInsert, recGe, weightKey, faceLo, faceHi]
  have hmem : faceLo ∈ (([faceLo, faceHi] : List FaceData) : Multiset FaceData) -
      ((enrollFold 1 [faceLo, faceHi] : List FaceData) : Multiset FaceData) := by
    rw [hfold]
    have hsplit : (([faceLo, faceHi] : List FaceData) : Multiset FaceData) =
        {faceLo} + (([faceHi] : List FaceData) : Multiset FaceData) := by
      rw [Multiset.singleton_add]
      rfl
    rw [hsplit, add_tsub_cancel_right]
    exact Multiset.mem_singleton_self faceLo
  refine (enroll_cap_sorted_eviction 1 [faceLo, faceHi]).2.2.2 faceLo hmem faceHi ?_
  rw [hfold]
  exact List.mem_singleton_self faceHi

/-- The insertion sort used by the code and the canonical multiset sort of
the spec agree on every similarity list. -/
theorem insertionSort_eq_multisetSort (l : List ℚ) :
    List.insertionSort (· ≥ ·) l = Multiset.sort (· ≥ ·) (l : Multiset ℚ) := by
  refine List.eq_of_perm_of_sorted ?_ (List.sorted_insertionSort _ l)
    (Multiset.sort_sorted _ _)
  exact (List.perm_insertionSort _ l).trans
    (Multiset.coe_eq_coe.mp (Multiset.sort_eq (· ≥ ·) (l : Multiset ℚ))).symm

/-- The running best score never decreases along the candidate loop. -/
theorem bestFold_ge (q : List ℚ) :
    ∀ (db : DB) (acc : Option String × ℚ), acc.2 ≤ (db.foldl (bestStep q) acc).2 := by
  intro db
  induction db with
  | nil => intro acc; exact le_refl _
  | cons p rest ih =>
    intro acc
    refine le_trans ?_ (ih (bestStep q acc p))
    unfold bestStep
    by_cases h : p.2 = []
    · simp [h]
    · by_cases h2 : acc.2 < personScore q p.2 <;> simp [h, h2, le_of_lt]

/-- The final best score dominates every considered person's score. -/
theorem bestFold_score_le (q : List ℚ) :
    ∀ (db : DB) (acc : Option String × ℚ) (p : String × List FaceData),
      p ∈ db → p.2 ≠ [] → personScore q p.2 ≤ (db.foldl (bestStep q) acc).2 := by
  intro db
  induction db with
  | nil => intro acc p hp; exact absurd hp (List.not_mem_nil p)
  | cons hd rest ih =>
    intro acc p hp hne
    rcases List.mem_cons.mp hp with rfl | hp'
    · refine le_trans ?_ (bestFold_ge q rest (bestStep q acc p))
      unfold bestStep
      by_cases h2 : acc.2 < personScore q p.2
      · simp [hne, h2]
      · simp [hne, h2, le_of_not_lt h2]
    · exact ih (bestStep q acc hd) p hp' hne

/-- The fold either returns its accumulator unchanged or returns the name
and score of some enrolled person with a non-empty record list. -/
theorem bestFold_provenance (q : List ℚ) :
    ∀ (db : DB) (acc : Option String × ℚ),
      db.foldl (bestStep q) acc = acc ∨
      ∃ p, p ∈ db ∧ p.2 ≠ [] ∧
        db.foldl (bestStep q) acc = (some p.1, personScore q p.2) := by
  intro db
  induction db with
  | nil => intro acc; exact Or.inl rfl
  | cons hd rest ih =>
    intro acc
    rcases ih (bestStep q acc hd) with h | ⟨p, hp, hne, hres⟩
    · simp only [List.foldl_cons, h]
      unfold bestStep
      by_cases h0 : hd.2 = []
      · simp [h0]
      · by_cases h2 : acc.2 < personScore q hd.2
        · refine Or.inr ⟨hd, List.mem_cons_self hd rest, h0, ?_⟩
          simp [h0, h2]
        · simp [h0, h2]
    · exact Or.inr ⟨p, List.mem_cons.mpr (Or.inr hp), hne, hres⟩

/-- C1: in `recognize_face`, every enrolled person with a non-empty record
list receives as match score the arithmetic mean of the top 3 (or all, if
fewer) weighted similarities over its stored records, each weighted
similarity being the raw cosine similarity (dot product of unit-norm
vectors) times (0.7 + 0.3 * stored quality) — the code's score coincides
with the spec-side `specPersonScore` — and whenever the loop produces a
candidate, that candidate is an enrolled person whose score is the highest
per-person score. -/
theorem recognize_score_and_argmax (q : List ℚ) (db : DB) :
    (∀ p ∈ db, p.2 ≠ [] → personScore q p.2 = specPersonScore q p.2) ∧
    (∀ n, (bestFold q db).1 = some n →
      ∃ embs, (n, embs) ∈ db ∧ embs ≠ [] ∧
        (bestFold q db).2 = personScore q embs ∧
        ∀ p ∈ db, p.2 ≠ [] → personScore q p.2 ≤ (bestFold q db).2) := by
  constructor
  · intro p _ _
    unfold personScore specPersonScore topAvg
    rw [insertionSort_eq_multisetSort]
  · intro n hn
    rcases bestFold_provenance q db (none, (0 : ℚ)) with h | ⟨p, hp, hne, hres⟩
    · rw [bestFold] at hn
      rw [h] at hn
      exact absurd hn (by simp)
    · refine ⟨p.2, ?_, hne, ?_, ?_⟩
      · have : (n, p.2) = p := by
          have h1 : (bestFold q db).1 = some p.1 := by rw [bestFold, hres]
          rw [hn] at h1
          obtain rfl : n = p.1 := Option.some.inj h1.symm |>.symm
          rfl
        rw [this]; exact hp
      · rw [bestFold, hres]
      · intro r hr hrne
        exact bestFold_score_le q db (none, (0 : ℚ)) r hr hrne

/-- Concrete two-person store used to instantiate
`recognize_score_and_argmax`. -/
def dbPair : DB := [("a", [⟨[1/2], 1, 1⟩]), ("b", [⟨[1/4], 0, 1⟩])]

/-- Closed instantiation of `recognize_score_and_argmax`: on `dbPair` the
loop selects person a, whose score 1/2 dominates person b's 7/40. -/
theorem recognize_score_and_argmax_witness :
    (bestFold [1] dbPair).1 = some "a" ∧
    ∃ embs, ("a", embs) ∈ dbPair ∧ embs ≠ [] ∧
      (bestFold [1] dbPair).2 = personScore [1] embs ∧
      ∀ p ∈ dbPair, p.2 ≠ [] → personScore [1] p.2 ≤ (bestFold [1] dbPair).2 := by
  have h : (bestFold [1] dbPair).1 = some "a" := by
    norm_num [bestFold, bestStep, dbPair, personScore, topAvg, personSims, weightedSim,
      dotQ, List.insertionSort, List.orderedInsert]
  exact ⟨h, (recognize_score_and_argmax [1] dbPair).2 "a" h⟩

/-- Store with a single enrolled record whose weighted similarity against
the query embedding [1] is exactly 9/10. -/
def dbNine : DB := [("a", [⟨[9/10], 1, 1⟩])]

/-- C2 counterexample: with base threshold 1 and two query faces of
identical best score 9/10, the quality-0 face is ACCEPTED (bar 0.8) while
the quality-1 face is rejected (bar 1.0): the effective bar is strictly
increasing in query quality, so the lower-quality query face faces the
more lenient bar, not the stricter one as the claim states. -/
theorem low_quality_bar_is_lower :
    quality_adjusted_threshold 1 0 < quality_adjusted_threshold 1 1 ∧
    (bestFold [1] dbNine).2 = 9/10 ∧
    (recognize_one 1 dbNine ⟨[1], 0, 1⟩).matched = true ∧
    (recognize_one 1 dbNine ⟨[1], 1, 1⟩).matched = false := by
  norm_num [quality_adjusted_threshold, recognize_one, bestFold, bestStep, personScore,
    topAvg, personSims, weightedSim, dotQ, dbNine, List.insertionSort, List.orderedInsert]

/-- C2 (amended): with base threshold t > 0, a query face is accepted
exactly when the best per-person score is at least
t * (0.8 + 0.2 * query_quality); this effective bar is strictly monotone
INCREASING in the query quality, so of two query faces with identical best
scores the LOWER-quality one faces the more lenient bar and the
higher-quality one the stricter (full) threshold. -/
theorem accept_iff_and_threshold_monotone (t q1 q2 : ℚ) (db : DB) (f : FaceData)
    (ht : 0 < t) (hq : q1 < q2) :
    ((recognize_one t db f).matched = true ↔
      quality_adjusted_threshold t f.quality_score ≤ (bestFold f.embedding db).2) ∧
    quality_adjusted_threshold t q1 < quality_adjusted_threshold t q2 := by
  constructor
  · simp [recognize_one]
  · unfold quality_adjusted_threshold
    have h8 : (0.8 + 0.2 * q1 : ℚ) < 0.8 + 0.2 * q2 := by nlinarith
    exact mul_lt_mul_of_pos_left h8 ht

/-- Closed instantiation of `accept_iff_and_threshold_monotone`. -/
theorem accept_iff_and_threshold_monotone_witness :
    ((recognize_one 1 dbNine ⟨[1], 0, 1⟩).matched = true ↔
      quality_adjusted_threshold 1 (FaceData.quality_score ⟨[1], 0, 1⟩) ≤
        (bestFold (FaceData.embedding ⟨[1], 0, 1⟩) dbNine).2) ∧
    quality_adjusted_threshold 1 0 < quality_adjusted_threshold 1 1 :=
  accept_iff_and_threshold_monotone 1 0 1 dbNine ⟨[1], 0, 1⟩ (by norm_num) (by norm_num)

/-- C8 counterexample: the claim quantifies over every threshold, but at
threshold 0 (so adjusted threshold 0) an empty store yields
best_similarity = 0.0 which passes the `>=` test: matched comes back TRUE
(with name none), contradicting the claimed matched = false. -/
theorem empty_store_matches_at_zero_threshold :
    (recognize_one 0 [] ⟨[], 0, 1⟩).matched = true ∧
    (recognize_one 0 [] ⟨[], 0, 1⟩).name = none := by
  norm_num [recognize_one, bestFold, quality_adjusted_threshold]

/-- C8 (amended): for every positive threshold and every query face with
nonnegative quality score, whenever no match is found — the store is empty,
or the best per-person score is below the quality-adjusted threshold — the
face's result has matched = false and name = none. -/
theorem no_match_yields_unmatched (t : ℚ) (db : DB) (f : FaceData)
    (ht : 0 < t) (hq : 0 ≤ f.quality_score) :
    (db = [] →
      (recognize_one t db f).matched = false ∧ (recognize_one t db f).name = none) ∧
    ((bestFold f.embedding db).2 < quality_adjusted_threshold t f.quality_score →
      (recognize_one t db f).matched = false ∧ (recognize_one t db f).name = none) := by
  have hadj : 0 < quality_adjusted_threshold t f.quality_score := by
    unfold quality_adjusted_threshold
    nlinarith
  constructor
  · rintro rfl
    have hbf : bestFold f.embedding [] = (none, 0) := rfl
    exact ⟨by simp [recognize_one, hbf, not_le.mpr hadj],
           by simp [recognize_one, hbf, not_le.mpr hadj]⟩
  · intro hlt
    exact ⟨by simp [recognize_one, not_le.mpr hlt],
           by simp [recognize_one, not_le.mpr hlt]⟩

/-- Closed instantiation of `no_match_yields_unmatched` on the empty store
at threshold 1. -/
theorem no_match_yields_unmatched_witness :
    (recognize_one 1 [] ⟨[], 0, 1⟩).matched = false ∧
    (recognize_one 1 [] ⟨[], 0, 1⟩).name = none :=
  (no_match_yields_unmatched 1 [] ⟨[], 0, 1⟩ (by norm_num) (by norm_num)).1 rfl

/-- C4: `log_attendance` is a no-op returning false when the name is
already in today's in-memory set; otherwise it is a true-returning append
of exactly one (date, time, name, 3-decimal confidence, Present) row that
also adds the name to today's set; consequently two same-day calls return
true then false, calls on two different days return true both times, and
every run from a fresh state leaves at most one Present row per
(person, calendar day) in the ledger. -/
theorem log_attendance_dedup :
    (∀ today time name conf s, name ∈ dailyGet (AttState.daily s) today →
        log_attendance today time name conf s = (false, s)) ∧
    (∀ today time name conf s, name ∉ dailyGet (AttState.daily s) today →
        log_attendance today time name conf s =
          (true, ⟨s.ledger ++ [⟨today, time, name, fmt3 conf, "Present"⟩],
                  dailyAdd s.daily today name⟩) ∧
        name ∈ dailyGet (AttState.daily (log_attendance today time name conf s).2) today) ∧
    (∀ today t1 t2 name c1 c2 s, name ∉ dailyGet (AttState.daily s) today →
        (log_attendance today t1 name c1 s).1 = true ∧
        (log_attendance today t2 name c2 (log_attendance today t1 name c1 s).2).1 = false) ∧
    (∀ d1 d2 t1 t2 name c1 c2 s, d1 ≠ d2 →
        name ∉ dailyGet (AttState.daily s) d1 → name ∉ dailyGet (AttState.daily s) d2 →
        (log_attendance d1 t1 name c1 s).1 = true ∧
        (log_attendance d2 t2 name c2 (log_attendance d1 t1 name c1 s).2).1 = true) ∧
    (∀ reqs d n, rowCount (AttState.ledger (runLog initAtt reqs)) d n ≤ 1) := by
  refine ⟨?_, ?_, ?_, ?_, ?_⟩
  · intro today time name conf s h
    simp [log_attendance, h]
  · intro today time name conf s h
    constructor
    · simp [log_attendance, h]
    · simp [log_attendance, h, dailyGet_dailyAdd_same]
  · intro today t1 t2 name c1 c2 s h
    constructor
    · simp [log_attendance, h]
    · simp [log_attendance, h, dailyGet_dailyAdd_same]
  · intro d1 d2 t1 t2 name c1 c2 s hdays h1 h2
    constructor
    · simp [log_attendance, h1]
    · have hother : dailyGet (dailyAdd s.daily d1 name) d2 = dailyGet s.daily d2 :=
        dailyGet_dailyAdd_other s.daily d1 d2 name hdays
      simp [log_attendance, h1, hother, h2]
  · intro reqs d n
    refine le_trans (runLog_inv reqs d n) ?_
    by_cases hx : n ∈ dailyGet (runLog initAtt reqs).daily d <;> simp [hx]

/-- Closed instantiation of `log_attendance_dedup`: from a fresh state,
logging alice twice on day one returns true then false, and logging alice
on day two after day one returns true. -/
theorem log_attendance_dedup_witness :
    (log_attendance "2024-01-01" "08:00:00" "alice" 1 initAtt).1 = true ∧
    (log_attendance "2024-01-01" "08:00:01" "alice" 1
        (log_attendance "2024-01-01" "08:00:00" "alice" 1 initAtt).2).1 = false ∧
    (log_attendance "2024-01-02" "08:00:00" "alice" 1
        (log_attendance "2024-01-01" "08:00:00" "alice" 1 initAtt).2).1 = true := by
  obtain ⟨-, -, h3, h4, -⟩ := log_attendance_dedup
  obtain ⟨ha, hb⟩ := h3 "2024-01-01" "08:00:00" "08:00:01" "alice" 1 1 initAtt (by decide)
  obtain ⟨-, hc⟩ :=
    h4 "2024-01-01" "2024-01-02" "08:00:00" "08:00:00" "alice" 1 1 initAtt
      (by decide) (by decide) (by decide)
  exact ⟨ha, hb, hc⟩

/-- C9: saving the embedding store and reloading it into a fresh instance
yields the same person names (in order) and, for each person, exactly the
same embedding records: identical quality and detection scores and
identical vector components (the float32 conversion is exact on this
rational model, hence within floating-point tolerance). -/
theorem save_load_roundtrip (db : DB) :
    load_embeddings (save_embeddings db) = db ∧
    get_enrolled_names (load_embeddings (save_embeddings db)) = get_enrolled_names db := by
  have h : load_embeddings (save_embeddings db) = db := by
    induction db with
    | nil => rfl
    | cons p rest ih =>
      cases p with
      | mk n l =>
        simpa [load_embeddings, save_embeddings, loadRecord_saveRecord l] using ih
  exact ⟨h, by rw [h]⟩

/-- C10: `get_enrolled_count` is the total number of stored embedding
records summed across persons — with distinct person names, a person
enrolled with k retained records contributes k via `dbGet` — while the
number of distinct persons is the length of `get_enrolled_names`. -/
theorem enrolled_count_total (db : DB) (h : (get_enrolled_names db).Nodup) :
    get_enrolled_count db =
      ((get_enrolled_names db).map (fun n => (dbGet db n).length)).sum ∧
    (get_enrolled_names db).length = db.length := by
  refine ⟨?_, by simp [get_enrolled_names]⟩
  induction db with
  | nil => rfl
  | cons p rest ih =>
    cases p with
    | mk n0 l0 =>
      simp only [get_enrolled_names, List.map_cons, List.nodup_cons] at h
      obtain ⟨hn0, hrest⟩ := h
      have hmap :
          (rest.map Prod.fst).map (fun n => (dbGet ((n0, l0) :: rest) n).length) =
          (rest.map Prod.fst).map (fun n => (dbGet rest n).length) := by
        refine List.map_congr_left ?_
        intro n hn
        have hne : n0 ≠ n := fun hEq => hn0 (hEq ▸ hn)
        simp [dbGet, hne]
      simp only [get_enrolled_count, get_enrolled_names, List.map_cons, List.sum_cons] at ih ⊢
      rw [hmap, ← ih hrest]
      simp [dbGet]

/-- Concrete two-person store used to instantiate `enrolled_count_total`. -/
def dbTwo : DB := [("a", [⟨[1], 1, 1⟩]), ("b", [⟨[1], 1, 1⟩, ⟨[0], 0, 1⟩])]

/-- Closed instantiation of `enrolled_count_total` at a concrete store. -/
theorem enrolled_count_total_witness :
    get_enrolled_count dbTwo =
      ((get_enrolled_names dbTwo).map (fun n => (dbGet dbTwo n).length)).sum ∧
    (get_enrolled_names dbTwo).length = dbTwo.length :=
  enrolled_count_total dbTwo (by decide)

/-- C7: a face narrower or shorter than `min_face_size` always yields
`size_ok = false` and `is_acceptable = false` regardless of the blur,
brightness and pose results; in general `is_acceptable` is the conjunction
of the size gate, the blur gate, the brightness gate and the pose gate. -/
theorem assess_size_gate (cfg : QFConfig) (f : DetFace) :
    ((f.width < cfg.min_face_size ∨ f.height < cfg.min_face_size) →
      (assess cfg f).size_ok = false ∧ (assess cfg f).is_acceptable = false) ∧
    (assess cfg f).is_acceptable =
      ((assess cfg f).size_ok && (decide (cfg.blur_threshold ≤ (assess cfg f).blur_score)) &&
        (assess cfg f).brightness_ok && (assess cfg f).pose_ok) := by
  refine ⟨?_, rfl⟩
  intro h
  rcases h with h | h <;>
    simp [assess, not_le.mpr h]

/-- Closed instantiation of `assess_size_gate`: a 30×100 face under the
default 60px minimum fails the size gate and overall acceptance even though
blur, brightness and pose all pass. -/
theorem assess_size_gate_witness :
    (assess ⟨60, 100⟩ ⟨30, 100, 1000, true, true⟩).size_ok = false ∧
    (assess ⟨60, 100⟩ ⟨30, 100, 1000, true, true⟩).is_acceptable = false :=
  (assess_size_gate ⟨60, 100⟩ ⟨30, 100, 1000, true, true⟩).1 (Or.inl (by norm_num))

set_option maxRecDepth 8000 in
/-- C5 (code bug): after `add_student("A")`, `add_student("B")` the
invariant `len(student_ids) == index.ntotal` holds, but a successful
`remove_student("A")` leaves `student_ids = ["B"]` while the rebuilt index
has zero rows — `remove_student` reinitialises the index and never re-adds
the surviving embeddings, so the parallel-array invariant is broken. -/
theorem remove_student_leaves_empty_index :
    ((add_student (add_student initFM "A" e512).2 "B" e512).2).student_ids.length =
      ((add_student (add_student initFM "A" e512).2 "B" e512).2).index.length ∧
    (remove_student (add_student (add_student initFM "A" e512).2 "B" e512).2 "A").1 = true ∧
    ((remove_student (add_student (add_student initFM "A" e512).2 "B" e512).2 "A").2).student_ids
      = ["B"] ∧
    ((remove_student (add_student (add_student initFM "A" e512).2 "B" e512).2 "A").2).index.length
      = 0 := by
  decide

/-- C6 (code bug): enrolling two images of qualities 0.3 then 0.9 succeeds
twice, but the reported `avg_quality` is 0.3 rather than the mean 0.6 of
the two newly added embeddings: after each enrollment the code reads
`embeddings_db[name][-1]` — the lowest-ranked entry of the quality-sorted
list — although its own comment says it wants the just-enrolled one. -/
theorem enroll_multiple_avg_quality_bug :
    (enroll_multiple_images [] "p" [[⟨[], 3/10, 1⟩], [⟨[], 9/10, 1⟩]]).1.enrolled_count = 2 ∧
    (enroll_multiple_images [] "p" [[⟨[], 3/10, 1⟩], [⟨[], 9/10, 1⟩]]).1.success = true ∧
    (enroll_multiple_images [] "p" [[⟨[], 3/10, 1⟩], [⟨[], 9/10, 1⟩]]).1.avg_quality = 3/10 ∧
    ((3 : ℚ)/10 + 9/10) / 2 ≠ 3/10 := by
  norm_num [enroll_multiple_images, enroll_person, min_embedding_quality, List.filter,
    pickBest, dbSet, dbGet, enrollUpdate, sortByKeyDesc, List.insertionSort,
    List.orderedInsert, recGe, weightKey, max_embeddings_per_person]

end FaceRec
